import Mathlib

/-!
Shallow embedding of `src/src/lib.rs` (a Mastermind scorer and game loop).

Codes are modelled as lists of pegs; the Rust fixed-size arrays
`[CodePeg; SIZE]` correspond to lists of length `SIZE`.  The scorer's two
passes (`for i in 0..SIZE` collecting exact matches and residuals, then the
linear search-and-remove present pass over the residuals) are structural
recursions.  The Rust code writes the accumulated feedback pegs into a
fixed `[None; SIZE]` array; here the packed score is the accumulator mapped
to `some` padded with `none` up to `SIZE`, which agrees with the Rust
behaviour whenever the accumulator holds at most `SIZE` pegs (proved below).
The game loop is modelled as a trace of collaborator calls, with the
mutable `CodeBreaker` collaborator threaded as explicit state.
-/

namespace Mastermind

/-- `pub const SIZE: usize = 4;` -/
def SIZE : Nat := 4

/-- The six peg colors of `enum CodePeg`. -/
inductive CodePeg where
  | A
  | B
  | C
  | D
  | E
  | F
deriving DecidableEq

/-- The two feedback peg kinds of `enum ScorePeg`. -/
inductive ScorePeg where
  | Match
  | Present
deriving DecidableEq

/-- First pass of `Scorer::score` over the zipped secret/guess positions:
for each position, an equal pair pushes a `Match` feedback peg, an unequal
pair pushes the secret peg onto `score_peg_not_matched` and the guess peg
onto `guess_peg_not_matched`, all in ascending position order.
Returns (match accumulator, secret residual, guess residual). -/
def scoreAux : List (CodePeg × CodePeg) → List ScorePeg × List CodePeg × List CodePeg
  | [] => ([], [], [])
  | (s, g) :: rest =>
    let r := scoreAux rest
    if s = g then (ScorePeg.Match :: r.1, r.2.1, r.2.2)
    else (r.1, s :: r.2.1, g :: r.2.2)

/-- Second pass of `Scorer::score`: iterate the unmatched guess pegs in
order; when the peg occurs in the remaining secret pegs, push a `Present`
feedback peg and remove that first occurrence (`position` + `remove` in the
Rust code is erasure of the first equal element). Returns the `Present`
accumulator and the final remaining secret pegs. -/
def presentPass : List CodePeg → List CodePeg → List ScorePeg × List CodePeg
  | [], sr => ([], sr)
  | g :: gs, sr =>
    if g ∈ sr then
      let r := presentPass gs (sr.erase g)
      (ScorePeg.Present :: r.1, r.2)
    else presentPass gs sr

/-- `Scorer::score`: run both passes, concatenate the feedback accumulators
(matches first, then presents), and pack them into the `SIZE` optional
slots, trailing slots `none`. -/
def Scorer.score (secret guess : List CodePeg) : List (Option ScorePeg) :=
  let p1 := scoreAux (secret.zip guess)
  let acc := p1.1 ++ (presentPass p1.2.2 p1.2.1).1
  acc.map some ++ List.replicate (SIZE - acc.length) none

/-- The all-exact-match score `Score::new([Some(ScorePeg::Match); SIZE])`. -/
def allMatchScore : List (Option ScorePeg) := List.replicate SIZE (some ScorePeg.Match)

/-- Number of `Match` feedback pegs in a packed score. -/
def countMatch (s : List (Option ScorePeg)) : Nat := s.count (some ScorePeg.Match)

/-- Number of `Present` feedback pegs in a packed score. -/
def countPresent (s : List (Option ScorePeg)) : Nat := s.count (some ScorePeg.Present)

/-- Number of positions where secret and guess agree (the pegs consumed by
the exact-match pass). -/
def exactCount (secret guess : List CodePeg) : Nat :=
  (secret.zip guess).countP (fun p => p.1 == p.2)

/-- Nat-valued mirror of the present pass: how many `Present` feedback pegs
the second pass produces from guess residual `gs` against secret residual
`sr`. -/
def presentCountAux : List CodePeg → List CodePeg → Nat
  | [], _ => 0
  | g :: gs, sr =>
    if g ∈ sr then presentCountAux gs (sr.erase g) + 1 else presentCountAux gs sr

/-- Number of `Present` feedback pegs `Scorer::score` produces. -/
def presentCount (secret guess : List CodePeg) : Nat :=
  let p1 := scoreAux (secret.zip guess)
  presentCountAux p1.2.2 p1.2.1

/-- Per-color mirror of the present pass: how many `Present` feedback pegs
are produced by guess residual pegs of color `c`. -/
def presentCountFor (c : CodePeg) : List CodePeg → List CodePeg → Nat
  | [], _ => 0
  | g :: gs, sr =>
    if g ∈ sr then (if g = c then 1 else 0) + presentCountFor c gs (sr.erase g)
    else presentCountFor c gs sr

/-- Number of positions where secret and guess both hold color `c` (the
exact matches consuming color `c`). -/
def exactCountFor (c : CodePeg) (secret guess : List CodePeg) : Nat :=
  (secret.zip guess).countP (fun p => p.1 == c && p.2 == c)

/-- One observable collaborator call made by `Game::play`. -/
inductive Event where
  | makeCode (c : List CodePeg)
  | guessCode (c : List CodePeg)
  | setScore (s : List (Option ScorePeg))
  | loses
deriving DecidableEq

/-- Whether an event is a `make_code` call. -/
def Event.isMakeCode : Event → Bool
  | .makeCode _ => true
  | _ => false

/-- Whether an event is a `guess_code` call. -/
def Event.isGuessCode : Event → Bool
  | .guessCode _ => true
  | _ => false

/-- Whether an event is a `set_score` call. -/
def Event.isSetScore : Event → Bool
  | .setScore _ => true
  | _ => false

/-- Whether an event is a `loses` call. -/
def Event.isLoses : Event → Bool
  | .loses => true
  | _ => false

/-- `trait CodeMaker`: its single operation `make_code` takes `&self`, so it
is modelled as the code it returns. -/
structure CodeMaker where
  makeCode : List CodePeg

/-- `trait CodeBreaker`: the `&mut self` receiver is made explicit as a
state of type `σ`, threaded through `set_score` and `loses`. -/
structure CodeBreaker (σ : Type) where
  guessCode : σ → List CodePeg
  setScore : σ → List (Option ScorePeg) → σ
  loses : σ → σ

/-- The `for _round in 0..self.max_round` loop of `Game::play`, recorded as
the trace of collaborator calls.  Each iteration asks for a guess, scores
it, delivers the score, and returns early on the all-match score; once the
budget is exhausted, `loses` is called. -/
def playLoop {σ : Type} (cb : CodeBreaker σ) (secret : List CodePeg) :
    Nat → σ → List Event
  | 0, _ => [Event.loses]
  | n + 1, st =>
    Event.guessCode (cb.guessCode st) ::
      Event.setScore (Scorer.score secret (cb.guessCode st)) ::
        (if Scorer.score secret (cb.guessCode st) = allMatchScore then []
         else playLoop cb secret n (cb.setScore st (Scorer.score secret (cb.guessCode st))))

/-- `Game::play`: request the secret from the code maker once, construct the
scorer from it, then run the round loop. -/
def Game.play {σ : Type} (maxRound : Nat) (cm : CodeMaker) (cb : CodeBreaker σ)
    (st : σ) : List Event :=
  Event.makeCode cm.makeCode :: playLoop cb cm.makeCode maxRound st

/-- The breaker state at the start of round `k` (0-indexed). -/
def stateAt {σ : Type} (cb : CodeBreaker σ) (secret : List CodePeg) :
    σ → Nat → σ
  | st, 0 => st
  | st, k + 1 =>
    stateAt cb secret (cb.setScore st (Scorer.score secret (cb.guessCode st))) k

/-- The guess submitted in round `k` (0-indexed). -/
def guessAt {σ : Type} (cb : CodeBreaker σ) (secret : List CodePeg) (st : σ)
    (k : Nat) : List CodePeg :=
  cb.guessCode (stateAt cb secret st k)

/-- The score delivered in round `k` (0-indexed). -/
def scoreAt {σ : Type} (cb : CodeBreaker σ) (secret : List CodePeg) (st : σ)
    (k : Nat) : List (Option ScorePeg) :=
  Scorer.score secret (guessAt cb secret st k)

/-- A stateless code breaker that always submits the same guess (used to
instantiate the game theorems on concrete runs). -/
def constBreaker (g : List CodePeg) : CodeBreaker Unit where
  guessCode := fun _ => g
  setScore := fun _ _ => ()
  loses := fun u => u

/-- A code breaker that plays a fixed list of guesses in order, its state
being the number of rounds played so far. -/
def scriptBreaker (gs : List (List CodePeg)) (fallback : List CodePeg) :
    CodeBreaker Nat where
  guessCode := fun k => gs.getD k fallback
  setScore := fun k _ => k + 1
  loses := fun k => k

/-! ### Structural lemmas about the two scoring passes -/

lemma beq_symm {α : Type} [DecidableEq α] (a b : α) : (a == b) = (b == a) := by
  by_cases h : a = b
  · subst h; rfl
  · simp [h, Ne.symm h]

lemma scoreAux_fst (l : List (CodePeg × CodePeg)) :
    (scoreAux l).1 = List.replicate (l.countP (fun p => p.1 == p.2)) ScorePeg.Match := by
  induction l with
  | nil => rfl
  | cons p rest ih =>
    obtain ⟨s, g⟩ := p
    by_cases h : s = g <;>
      simp [scoreAux, h, List.countP_cons, ih, List.replicate_succ]

lemma scoreAux_residual_fst (l : List (CodePeg × CodePeg)) :
    (scoreAux l).2.1 = (l.filter (fun p => !(p.1 == p.2))).map Prod.fst := by
  induction l with
  | nil => rfl
  | cons p rest ih =>
    obtain ⟨s, g⟩ := p
    by_cases h : s = g <;> simp [scoreAux, h, ih]

lemma scoreAux_residual_snd (l : List (CodePeg × CodePeg)) :
    (scoreAux l).2.2 = (l.filter (fun p => !(p.1 == p.2))).map Prod.snd := by
  induction l with
  | nil => rfl
  | cons p rest ih =>
    obtain ⟨s, g⟩ := p
    by_cases h : s = g <;> simp [scoreAux, h, ih]

lemma presentPass_fst (gs : List CodePeg) :
    ∀ sr, (presentPass gs sr).1 = List.replicate (presentCountAux gs sr) ScorePeg.Present := by
  induction gs with
  | nil => intro sr; rfl
  | cons g gs ih =>
    intro sr
    by_cases h : g ∈ sr <;>
      simp [presentPass, presentCountAux, h, ih, List.replicate_succ]

/-- The packed score is: exact matches, then presents, then empty slots. -/
lemma score_eq (S G : List CodePeg) :
    Scorer.score S G =
      List.replicate (exactCount S G) (some ScorePeg.Match) ++
        List.replicate (presentCount S G) (some ScorePeg.Present) ++
        List.replicate (SIZE - (exactCount S G + presentCount S G)) none := by
  unfold Scorer.score
  simp [scoreAux_fst, presentPass_fst, exactCount, presentCount,
    List.map_replicate, List.append_assoc]

lemma countMatch_score (S G : List CodePeg) :
    countMatch (Scorer.score S G) = exactCount S G := by
  rw [countMatch, score_eq]
  simp [List.count_append, List.count_replicate]

lemma countPresent_score (S G : List CodePeg) :
    countPresent (Scorer.score S G) = presentCount S G := by
  rw [countPresent, score_eq]
  simp [List.count_append, List.count_replicate]

lemma presentCountAux_le (gs : List CodePeg) :
    ∀ sr, presentCountAux gs sr ≤ gs.length := by
  induction gs with
  | nil => intro sr; simp [presentCountAux]
  | cons g gs ih =>
    intro sr
    by_cases h : g ∈ sr <;> simp only [presentCountAux, h, if_pos, if_neg,
      not_false_iff, List.length_cons]
    · exact Nat.succ_le_succ (ih _)
    · exact Nat.le_succ_of_le (ih _)

/-- The present pass realises the multiset intersection of the residuals:
its total count is the cardinality of `gs ∩ sr` as multisets. -/
lemma presentCountAux_eq_card_inter (gs : List CodePeg) :
    ∀ sr, presentCountAux gs sr =
      Multiset.card ((gs : Multiset CodePeg) ∩ (sr : Multiset CodePeg)) := by
  induction gs with
  | nil => intro sr; simp [presentCountAux, Multiset.zero_inter]
  | cons g gs ih =>
    intro sr
    by_cases h : g ∈ sr
    · rw [presentCountAux, if_pos h, ih, ← Multiset.cons_coe,
        Multiset.cons_inter_of_pos _ (Multiset.mem_coe.2 h), Multiset.card_cons,
        Multiset.coe_erase]
    · rw [presentCountAux, if_neg h, ih, ← Multiset.cons_coe,
        Multiset.cons_inter_of_neg _ (fun hc => h (Multiset.mem_coe.1 hc))]

/-- Per-color content of the present pass: the number of `Present` pegs
attributable to color `c` is the minimum of its residual multiplicities. -/
lemma presentCountFor_eq_min (c : CodePeg) (gs : List CodePeg) :
    ∀ sr, presentCountFor c gs sr = min (gs.count c) (sr.count c) := by
  induction gs with
  | nil => intro sr; simp [presentCountFor]
  | cons g gs ih =>
    intro sr
    by_cases hm : g ∈ sr
    · by_cases hc : g = c
      · subst hc
        have h1 : 0 < sr.count g := List.count_pos_iff.2 hm
        rw [presentCountFor, if_pos hm, if_pos rfl, ih,
          List.count_erase_self, List.count_cons_self]
        omega
      · rw [presentCountFor, if_pos hm, if_neg hc, ih,
          List.count_erase_of_ne (fun hcg => hc hcg.symm),
          List.count_cons_of_ne (fun hcg => hc hcg.symm)]
        omega
    · by_cases hc : g = c
      · subst hc
        have h0 : sr.count g = 0 := List.count_eq_zero.2 hm
        rw [presentCountFor, if_neg hm, ih, List.count_cons_self, h0]
        omega
      · rw [presentCountFor, if_neg hm, ih,
          List.count_cons_of_ne (fun hcg => hc hcg.symm)]

lemma countP_bnot_add (l : List (CodePeg × CodePeg)) :
    l.countP (fun p => !(p.1 == p.2)) + l.countP (fun p => p.1 == p.2) = l.length := by
  induction l with
  | nil => rfl
  | cons p rest ih =>
    by_cases h : p.1 = p.2 <;> simp [List.countP_cons, h] <;> omega

lemma residual_guess_length (S G : List CodePeg) :
    (scoreAux (S.zip G)).2.2.length = (S.zip G).length - exactCount S G := by
  rw [scoreAux_residual_snd, List.length_map, ← List.countP_eq_length_filter, exactCount]
  have := countP_bnot_add (S.zip G)
  omega

lemma exact_add_present_le (S G : List CodePeg) :
    exactCount S G + presentCount S G ≤ (S.zip G).length := by
  have hp : presentCount S G ≤ (scoreAux (S.zip G)).2.2.length := by
    rw [presentCount]
    exact presentCountAux_le _ _
  have he : exactCount S G ≤ (S.zip G).length := List.countP_le_length _
  have hr := residual_guess_length S G
  omega

lemma exactCount_self (S : List CodePeg) : exactCount S S = S.length := by
  induction S with
  | nil => rfl
  | cons s S ih => simpa [exactCount, List.countP_cons] using ih

lemma mem_zip_self {S : List CodePeg} {p : CodePeg × CodePeg} (hp : p ∈ S.zip S) :
    p.1 = p.2 := by
  induction S with
  | nil => cases hp
  | cons s S ih =>
    rw [List.zip_cons_cons, List.mem_cons] at hp
    rcases hp with h | h
    · rw [h]
    · exact ih h

lemma residual_guess_self (S : List CodePeg) : (scoreAux (S.zip S)).2.2 = [] := by
  rw [scoreAux_residual_snd]
  have h : (S.zip S).filter (fun p => !(p.1 == p.2)) = [] := by
    rw [List.filter_eq_nil_iff]
    intro p hp
    simp [mem_zip_self hp]
  rw [h, List.map_nil]

lemma presentCount_self (S : List CodePeg) : presentCount S S = 0 := by
  rw [presentCount, residual_guess_self]
  rfl

/-- Scoring a guess identical to the secret yields the all-match score. -/
lemma score_self (S : List CodePeg) (hS : S.length = SIZE) :
    Scorer.score S S = allMatchScore := by
  rw [score_eq, exactCount_self, presentCount_self, hS]
  simp [allMatchScore]

lemma countMatch_allMatchScore : countMatch allMatchScore = SIZE := by
  rw [countMatch, allMatchScore]
  simp [List.count_replicate]

lemma exactCount_eq_length_iff (S : List CodePeg) :
    ∀ G : List CodePeg, S.length = G.length → (exactCount S G = S.length ↔ S = G) := by
  induction S with
  | nil =>
    intro G hG
    cases G with
    | nil => simp [exactCount]
    | cons g G => cases hG
  | cons s S ih =>
    intro G hG
    cases G with
    | nil => cases hG
    | cons g G =>
      have hlen : S.length = G.length := by
        simpa using hG
      have hle : exactCount S G ≤ (S.zip G).length := List.countP_le_length _
      have hzl : (S.zip G).length = S.length := by
        rw [List.length_zip, hlen]
        simp
      constructor
      · intro h
        have hcp : exactCount S G + (if s = g then 1 else 0) = S.length + 1 := by
          rw [exactCount, List.zip_cons_cons, List.countP_cons] at h
          simpa [exactCount] using h
        by_cases hsg : s = g
        · subst hsg
          rw [if_pos rfl] at hcp
          have hrec : exactCount S G = S.length := by omega
          rw [(ih G hlen).1 hrec]
        · rw [if_neg hsg] at hcp
          exfalso
          omega
      · intro heq
        injection heq with h1 h2
        subst h1
        subst h2
        exact exactCount_self (s :: S)

/-- The packed score equals the all-match score exactly when the guess
equals the secret (for full-length codes). -/
lemma score_eq_allMatch_iff (S G : List CodePeg) (hS : S.length = SIZE)
    (hG : G.length = SIZE) :
    Scorer.score S G = allMatchScore ↔ G = S := by
  constructor
  · intro h
    have hm : exactCount S G = SIZE := by
      rw [← countMatch_score, h, countMatch_allMatchScore]
    have := (exactCount_eq_length_iff S G (hS.trans hG.symm)).1 (by rw [hm, hS])
    exact this.symm
  · intro h
    subst h
    exact score_self _ hS

/-- Under no positional overlap for color `c`, the exact-match pass removes
no secret peg of color `c`: the secret residual keeps all of them. -/
lemma scoreAux_residual_fst_count (c : CodePeg) :
    ∀ l : List (CodePeg × CodePeg), (∀ p ∈ l, ¬(p.1 = c ∧ p.2 = c)) →
      ((scoreAux l).2.1).count c = (l.map Prod.fst).count c := by
  intro l
  induction l with
  | nil => intro h; rfl
  | cons p rest ih =>
    intro h
    obtain ⟨s, g⟩ := p
    have hrest := fun q hq => h q (List.mem_cons_of_mem _ hq)
    by_cases hsg : s = g
    · subst hsg
      have hs : s ≠ c := fun hc => h (s, s) (List.mem_cons_self _ _) ⟨hc, hc⟩
      simp [scoreAux, ih hrest, List.count_cons, hs]
    · simp [scoreAux, hsg, ih hrest, List.count_cons]

/-- Under no positional overlap for color `c`, the guess residual keeps all
guess pegs of color `c`. -/
lemma scoreAux_residual_snd_count (c : CodePeg) :
    ∀ l : List (CodePeg × CodePeg), (∀ p ∈ l, ¬(p.1 = c ∧ p.2 = c)) →
      ((scoreAux l).2.2).count c = (l.map Prod.snd).count c := by
  intro l
  induction l with
  | nil => intro h; rfl
  | cons p rest ih =>
    intro h
    obtain ⟨s, g⟩ := p
    have hrest := fun q hq => h q (List.mem_cons_of_mem _ hq)
    by_cases hsg : s = g
    · subst hsg
      have hs : s ≠ c := fun hc => h (s, s) (List.mem_cons_self _ _) ⟨hc, hc⟩
      simp [scoreAux, ih hrest, List.count_cons, hs]
    · simp [scoreAux, hsg, ih hrest, List.count_cons]

/-! ### Symmetry of the two passes under swapping secret and guess -/

lemma exactCount_comm (S G : List CodePeg) : exactCount S G = exactCount G S := by
  rw [exactCount, exactCount, ← List.zip_swap S G, List.countP_map]
  exact (List.countP_congr (fun p _ => by simp [Function.comp, beq_symm])).symm

lemma scoreAux_residual_swap_fst (S G : List CodePeg) :
    (scoreAux (G.zip S)).2.1 = (scoreAux (S.zip G)).2.2 := by
  rw [scoreAux_residual_fst, scoreAux_residual_snd, ← List.zip_swap S G,
    List.filter_map, List.map_map]
  rw [List.filter_congr
    (fun a _ => by simp [Function.comp, beq_symm a.1 a.2] :
      ∀ a ∈ S.zip G,
        ((fun p : CodePeg × CodePeg => !(p.1 == p.2)) ∘ Prod.swap) a =
          (fun p : CodePeg × CodePeg => !(p.1 == p.2)) a)]
  exact List.map_congr_left (fun a _ => rfl)

lemma scoreAux_residual_swap_snd (S G : List CodePeg) :
    (scoreAux (G.zip S)).2.2 = (scoreAux (S.zip G)).2.1 := by
  rw [scoreAux_residual_snd, scoreAux_residual_fst, ← List.zip_swap S G,
    List.filter_map, List.map_map]
  rw [List.filter_congr
    (fun a _ => by simp [Function.comp, beq_symm a.1 a.2] :
      ∀ a ∈ S.zip G,
        ((fun p : CodePeg × CodePeg => !(p.1 == p.2)) ∘ Prod.swap) a =
          (fun p : CodePeg × CodePeg => !(p.1 == p.2)) a)]
  exact List.map_congr_left (fun a _ => rfl)

lemma presentCount_comm (S G : List CodePeg) : presentCount S G = presentCount G S := by
  rw [presentCount, presentCount, scoreAux_residual_swap_fst,
    scoreAux_residual_swap_snd, presentCountAux_eq_card_inter,
    presentCountAux_eq_card_inter, Multiset.inter_comm]

/-- `exactCount` counts exactly the positions (as indices) where the two
codes agree. -/
lemma exactCount_eq_card (n : Nat) :
    ∀ S G : List CodePeg, S.length = n → G.length = n →
      exactCount S G =
        (Finset.univ.filter
          (fun i : Fin n => S.getD i.1 CodePeg.A = G.getD i.1 CodePeg.A)).card := by
  induction n with
  | zero =>
    intro S G hS hG
    rw [List.length_eq_zero] at hS hG
    subst hS
    subst hG
    simp [exactCount]
  | succ n ih =>
    intro S G hS hG
    obtain ⟨s, S', rfl⟩ := List.exists_of_length_succ S hS
    obtain ⟨g, G', rfl⟩ := List.exists_of_length_succ G hG
    have hS' : S'.length = n := by simpa using hS
    have hG' : G'.length = n := by simpa using hG
    rw [Finset.card_filter, Fin.sum_univ_succ]
    simp only [Fin.val_zero, List.getD_cons_zero, Fin.val_succ, List.getD_cons_succ]
    rw [← Finset.card_filter, ← ih S' G' hS' hG']
    rw [exactCount, List.zip_cons_cons, List.countP_cons, ← exactCount]
    by_cases h : s = g
    · simp [h]
      omega
    · simp [h]

/-! ### Lemmas about the game loop -/

lemma playLoop_counts_of_no_win {σ : Type} (cb : CodeBreaker σ) (secret : List CodePeg) :
    ∀ (n : Nat) (st : σ), (∀ k, k < n → scoreAt cb secret st k ≠ allMatchScore) →
      (playLoop cb secret n st).countP Event.isSetScore = n ∧
      (playLoop cb secret n st).countP Event.isLoses = 1 := by
  intro n
  induction n with
  | zero => intro st _; exact ⟨rfl, rfl⟩
  | succ n ih =>
    intro st h
    have h0 : Scorer.score secret (cb.guessCode st) ≠ allMatchScore := by
      have := h 0 (Nat.succ_pos n)
      simpa [scoreAt, guessAt, stateAt] using this
    have hrest := ih (cb.setScore st (Scorer.score secret (cb.guessCode st)))
      (fun k hk => by
        have := h (k + 1) (Nat.succ_lt_succ hk)
        simpa [scoreAt, guessAt, stateAt] using this)
    rw [playLoop, if_neg h0]
    constructor
    · simp [List.countP_cons, Event.isSetScore, hrest.1]
    · simp [List.countP_cons, Event.isLoses, hrest.2]

lemma playLoop_loss_shape {σ : Type} (cb : CodeBreaker σ) (secret : List CodePeg) :
    ∀ (n : Nat) (st : σ),
      (∀ k, k < n + 1 → scoreAt cb secret st k ≠ allMatchScore) →
      ∃ l, playLoop cb secret (n + 1) st =
        l ++ [Event.setScore (scoreAt cb secret st n), Event.loses] := by
  intro n
  induction n with
  | zero =>
    intro st h
    have h0 : Scorer.score secret (cb.guessCode st) ≠ allMatchScore := by
      have := h 0 Nat.one_pos
      simpa [scoreAt, guessAt, stateAt] using this
    refine ⟨[Event.guessCode (cb.guessCode st)], ?_⟩
    rw [playLoop, if_neg h0]
    rfl
  | succ n ih =>
    intro st h
    have h0 : Scorer.score secret (cb.guessCode st) ≠ allMatchScore := by
      have := h 0 (Nat.succ_pos _)
      simpa [scoreAt, guessAt, stateAt] using this
    obtain ⟨l, hl⟩ := ih (cb.setScore st (Scorer.score secret (cb.guessCode st)))
      (fun k hk => by
        have := h (k + 1) (Nat.succ_lt_succ hk)
        simpa [scoreAt, guessAt, stateAt] using this)
    refine ⟨Event.guessCode (cb.guessCode st) ::
      Event.setScore (Scorer.score secret (cb.guessCode st)) :: l, ?_⟩
    rw [playLoop, if_neg h0, hl]
    rfl

lemma playLoop_win {σ : Type} (cb : CodeBreaker σ) (secret : List CodePeg) :
    ∀ (w : Nat) (st : σ) (n : Nat), w < n →
      (∀ k, k < w → scoreAt cb secret st k ≠ allMatchScore) →
      scoreAt cb secret st w = allMatchScore →
      (playLoop cb secret n st).countP Event.isSetScore = w + 1 ∧
      (playLoop cb secret n st).countP Event.isLoses = 0 ∧
      ∃ l, playLoop cb secret n st = l ++ [Event.setScore allMatchScore] := by
  intro w
  induction w with
  | zero =>
    intro st n hn h hw
    obtain ⟨m, rfl⟩ : ∃ m, n = m + 1 := ⟨n - 1, by omega⟩
    have h0 : Scorer.score secret (cb.guessCode st) = allMatchScore := by
      simpa [scoreAt, guessAt, stateAt] using hw
    rw [playLoop, if_pos h0, h0]
    refine ⟨rfl, rfl, ⟨[Event.guessCode (cb.guessCode st)], rfl⟩⟩
  | succ w ih =>
    intro st n hn h hw
    obtain ⟨m, rfl⟩ : ∃ m, n = m + 1 := ⟨n - 1, by omega⟩
    have h0 : Scorer.score secret (cb.guessCode st) ≠ allMatchScore := by
      have := h 0 (Nat.succ_pos _)
      simpa [scoreAt, guessAt, stateAt] using this
    have hrec := ih (cb.setScore st (Scorer.score secret (cb.guessCode st))) m
      (by omega)
      (fun k hk => by
        have := h (k + 1) (Nat.succ_lt_succ hk)
        simpa [scoreAt, guessAt, stateAt] using this)
      (by simpa [scoreAt, guessAt, stateAt] using hw)
    obtain ⟨hc1, hc2, l, hl⟩ := hrec
    rw [playLoop, if_neg h0]
    refine ⟨?_, ?_, ⟨Event.guessCode (cb.guessCode st) ::
      Event.setScore (Scorer.score secret (cb.guessCode st)) :: l, ?_⟩⟩
    · simp [List.countP_cons, Event.isSetScore, hc1]
    · simp [List.countP_cons, Event.isLoses, hc2]
    · rw [hl]
      rfl

lemma playLoop_countP_isLoses_le_one {σ : Type} (cb : CodeBreaker σ)
    (secret : List CodePeg) :
    ∀ (n : Nat) (st : σ), (playLoop cb secret n st).countP Event.isLoses ≤ 1 := by
  intro n
  induction n with
  | zero => intro st; exact Nat.le_refl 1
  | succ n ih =>
    intro st
    rw [playLoop]
    by_cases h : Scorer.score secret (cb.guessCode st) = allMatchScore
    · rw [if_pos h]
      simp [List.countP_cons, Event.isLoses]
    · rw [if_neg h]
      simpa [List.countP_cons, Event.isLoses] using ih _

lemma playLoop_no_loses_of_win {σ : Type} (cb : CodeBreaker σ)
    (secret : List CodePeg) :
    ∀ (n : Nat) (st : σ), Event.setScore allMatchScore ∈ playLoop cb secret n st →
      (playLoop cb secret n st).countP Event.isLoses = 0 := by
  intro n
  induction n with
  | zero =>
    intro st hmem
    simp [playLoop] at hmem
  | succ n ih =>
    intro st hmem
    rw [playLoop] at hmem ⊢
    by_cases h : Scorer.score secret (cb.guessCode st) = allMatchScore
    · rw [if_pos h] at hmem ⊢
      simp [List.countP_cons, Event.isLoses]
    · rw [if_neg h] at hmem ⊢
      simp only [List.mem_cons] at hmem
      rcases hmem with h1 | h2 | h3
      · cases h1
      · exact absurd (Event.setScore.inj h2).symm h
      · simpa [List.countP_cons, Event.isLoses] using ih _ h3

/-! ### Claim theorems for the scorer -/

/-- C1: for every secret `S` and guess `G` of length 4, the number of
`Match` pegs in the score returned by `Scorer::score` equals the number of
positions `i < 4` where `S[i] = G[i]`. -/
theorem scorer_exact_match_count (S G : List CodePeg)
    (hS : S.length = SIZE) (hG : G.length = SIZE) :
    countMatch (Scorer.score S G) =
      (Finset.univ.filter
        (fun i : Fin SIZE => S.getD i.1 CodePeg.A = G.getD i.1 CodePeg.A)).card := by
  rw [countMatch_score]
  exact exactCount_eq_card SIZE S G hS hG

/-- Witness for C1 at secret `[C,C,A,F]`, guess `[C,D,D,F]`. -/
theorem scorer_exact_match_count_witness :
    countMatch (Scorer.score [CodePeg.C, CodePeg.C, CodePeg.A, CodePeg.F]
        [CodePeg.C, CodePeg.D, CodePeg.D, CodePeg.F]) =
      (Finset.univ.filter
        (fun i : Fin SIZE =>
          [CodePeg.C, CodePeg.C, CodePeg.A, CodePeg.F].getD i.1 CodePeg.A =
            [CodePeg.C, CodePeg.D, CodePeg.D, CodePeg.F].getD i.1 CodePeg.A)).card :=
  scorer_exact_match_count _ _ rfl rfl

/-- C2: if color `c` appears `m` times in the secret and `n` times in the
guess with no positional overlap for `c`, the number of `Present` feedback
pegs attributable to `c` in the present pass equals `min m n` minus the
exact matches already consumed for `c` (which are zero here). -/
theorem scorer_present_multiset_cap (S G : List CodePeg) (c : CodePeg) (m n : Nat)
    (hS : S.length = SIZE) (hG : G.length = SIZE)
    (hm : S.count c = m) (hn : G.count c = n)
    (hno : ∀ p ∈ S.zip G, ¬(p.1 = c ∧ p.2 = c)) :
    presentCountFor c (scoreAux (S.zip G)).2.2 (scoreAux (S.zip G)).2.1 =
      min m n - exactCountFor c S G := by
  have hfst := scoreAux_residual_fst_count c (S.zip G) hno
  have hsnd := scoreAux_residual_snd_count c (S.zip G) hno
  rw [List.map_fst_zip S G (by rw [hS, hG])] at hfst
  rw [List.map_snd_zip S G (by rw [hS, hG])] at hsnd
  have hzero : exactCountFor c S G = 0 := by
    rw [exactCountFor, List.countP_eq_zero]
    intro p hp
    simpa using hno p hp
  rw [presentCountFor_eq_min, hsnd, hfst, hm, hn, hzero, Nat.min_comm]
  omega

/-- Witness for C2 at secret `[A,B,C,D]`, guess `[B,A,B,B]`, color `B`
(`m = 1`, `n = 3`, no positional overlap for `B`). -/
theorem scorer_present_multiset_cap_witness :
    presentCountFor CodePeg.B
        (scoreAux ([CodePeg.A, CodePeg.B, CodePeg.C, CodePeg.D].zip
          [CodePeg.B, CodePeg.A, CodePeg.B, CodePeg.B])).2.2
        (scoreAux ([CodePeg.A, CodePeg.B, CodePeg.C, CodePeg.D].zip
          [CodePeg.B, CodePeg.A, CodePeg.B, CodePeg.B])).2.1 =
      min 1 3 - exactCountFor CodePeg.B [CodePeg.A, CodePeg.B, CodePeg.C, CodePeg.D]
        [CodePeg.B, CodePeg.A, CodePeg.B, CodePeg.B] :=
  scorer_present_multiset_cap _ _ _ _ _ rfl rfl rfl rfl (by decide)

/-- C3: the packed score consists of all `Match` pegs first, then all
`Present` pegs, then empty (`none`) trailing slots, in a score of exactly
`SIZE` slots. -/
theorem scorer_score_packing (S G : List CodePeg)
    (hS : S.length = SIZE) (hG : G.length = SIZE) :
    Scorer.score S G =
      List.replicate (exactCount S G) (some ScorePeg.Match) ++
        List.replicate (presentCount S G) (some ScorePeg.Present) ++
        List.replicate (SIZE - (exactCount S G + presentCount S G)) none ∧
    (Scorer.score S G).length = SIZE := by
  refine ⟨score_eq S G, ?_⟩
  have hle : exactCount S G + presentCount S G ≤ SIZE := by
    have h := exact_add_present_le S G
    rw [List.length_zip, hS, hG] at h
    simpa using h
  rw [score_eq]
  simp only [List.length_append, List.length_replicate]
  omega

/-- Witness for C3 at secret `[A,C,E,F]`, guess `[C,D,D,F]`. -/
theorem scorer_score_packing_witness :
    Scorer.score [CodePeg.A, CodePeg.C, CodePeg.E, CodePeg.F]
        [CodePeg.C, CodePeg.D, CodePeg.D, CodePeg.F] =
      List.replicate (exactCount [CodePeg.A, CodePeg.C, CodePeg.E, CodePeg.F]
          [CodePeg.C, CodePeg.D, CodePeg.D, CodePeg.F]) (some ScorePeg.Match) ++
        List.replicate (presentCount [CodePeg.A, CodePeg.C, CodePeg.E, CodePeg.F]
          [CodePeg.C, CodePeg.D, CodePeg.D, CodePeg.F]) (some ScorePeg.Present) ++
        List.replicate (SIZE -
          (exactCount [CodePeg.A, CodePeg.C, CodePeg.E, CodePeg.F]
              [CodePeg.C, CodePeg.D, CodePeg.D, CodePeg.F] +
            presentCount [CodePeg.A, CodePeg.C, CodePeg.E, CodePeg.F]
              [CodePeg.C, CodePeg.D, CodePeg.D, CodePeg.F])) none ∧
    (Scorer.score [CodePeg.A, CodePeg.C, CodePeg.E, CodePeg.F]
        [CodePeg.C, CodePeg.D, CodePeg.D, CodePeg.F]).length = SIZE :=
  scorer_score_packing _ _ rfl rfl

/-- C4: swapping secret and guess preserves the number of `Match` pegs and
the number of `Present` pegs in the resulting scores. -/
theorem scorer_score_symmetric_counts (S G : List CodePeg)
    (_hS : S.length = SIZE) (_hG : G.length = SIZE) :
    countMatch (Scorer.score S G) = countMatch (Scorer.score G S) ∧
    countPresent (Scorer.score S G) = countPresent (Scorer.score G S) := by
  rw [countMatch_score, countMatch_score, countPresent_score, countPresent_score]
  exact ⟨exactCount_comm S G, presentCount_comm S G⟩

/-- Witness for C4 at codes `[A,A,B,C]` and `[A,B,B,B]`. -/
theorem scorer_score_symmetric_counts_witness :
    countMatch (Scorer.score [CodePeg.A, CodePeg.A, CodePeg.B, CodePeg.C]
        [CodePeg.A, CodePeg.B, CodePeg.B, CodePeg.B]) =
      countMatch (Scorer.score [CodePeg.A, CodePeg.B, CodePeg.B, CodePeg.B]
        [CodePeg.A, CodePeg.A, CodePeg.B, CodePeg.C]) ∧
    countPresent (Scorer.score [CodePeg.A, CodePeg.A, CodePeg.B, CodePeg.C]
        [CodePeg.A, CodePeg.B, CodePeg.B, CodePeg.B]) =
      countPresent (Scorer.score [CodePeg.A, CodePeg.B, CodePeg.B, CodePeg.B]
        [CodePeg.A, CodePeg.A, CodePeg.B, CodePeg.C]) :=
  scorer_score_symmetric_counts _ _ rfl rfl

/-- C5: the number of non-empty slots in the packed score is the number of
produced feedback pegs, and it never exceeds the code length `SIZE`. -/
theorem scorer_score_capacity (S G : List CodePeg)
    (hS : S.length = SIZE) (hG : G.length = SIZE) :
    (Scorer.score S G).countP (fun o => o.isSome) =
      exactCount S G + presentCount S G ∧
    exactCount S G + presentCount S G ≤ SIZE := by
  constructor
  · rw [score_eq]
    simp [List.countP_append, List.countP_replicate]
  · have h := exact_add_present_le S G
    rw [List.length_zip, hS, hG] at h
    simpa using h

/-- Witness for C5 at secret `[A,B,C,D]`, guess `[D,C,B,A]`. -/
theorem scorer_score_capacity_witness :
    (Scorer.score [CodePeg.A, CodePeg.B, CodePeg.C, CodePeg.D]
        [CodePeg.D, CodePeg.C, CodePeg.B, CodePeg.A]).countP (fun o => o.isSome) =
      exactCount [CodePeg.A, CodePeg.B, CodePeg.C, CodePeg.D]
          [CodePeg.D, CodePeg.C, CodePeg.B, CodePeg.A] +
        presentCount [CodePeg.A, CodePeg.B, CodePeg.C, CodePeg.D]
          [CodePeg.D, CodePeg.C, CodePeg.B, CodePeg.A] ∧
    exactCount [CodePeg.A, CodePeg.B, CodePeg.C, CodePeg.D]
        [CodePeg.D, CodePeg.C, CodePeg.B, CodePeg.A] +
      presentCount [CodePeg.A, CodePeg.B, CodePeg.C, CodePeg.D]
        [CodePeg.D, CodePeg.C, CodePeg.B, CodePeg.A] ≤ SIZE :=
  scorer_score_capacity _ _ rfl rfl

/-- C6: guessing the secret itself yields the all-`Match` score, with no
`Present` peg. -/
theorem scorer_score_self_all_match (S : List CodePeg) (hS : S.length = SIZE) :
    Scorer.score S S = allMatchScore ∧ countPresent (Scorer.score S S) = 0 := by
  refine ⟨score_self S hS, ?_⟩
  rw [countPresent_score, presentCount_self]

/-- Witness for C6 at code `[B,B,A,E]`. -/
theorem scorer_score_self_all_match_witness :
    Scorer.score [CodePeg.B, CodePeg.B, CodePeg.A, CodePeg.E]
        [CodePeg.B, CodePeg.B, CodePeg.A, CodePeg.E] = allMatchScore ∧
    countPresent (Scorer.score [CodePeg.B, CodePeg.B, CodePeg.A, CodePeg.E]
        [CodePeg.B, CodePeg.B, CodePeg.A, CodePeg.E]) = 0 :=
  scorer_score_self_all_match _ rfl

/-! ### Claim theorems for the game loop -/

/-- C7: with round budget `R ≥ 1` and a guesser whose `R` guesses never
equal the secret, `play` delivers exactly `R` scores via `set_score`, calls
`loses` exactly once, and the final round's score is delivered immediately
before the loss notification. -/
theorem game_play_loss {σ : Type} (cb : CodeBreaker σ) (cm : CodeMaker) (st : σ)
    (R : Nat) (hR : 1 ≤ R) (hsec : cm.makeCode.length = SIZE)
    (hne : ∀ k, k < R → guessAt cb cm.makeCode st k ≠ cm.makeCode)
    (hlen : ∀ k, k < R → (guessAt cb cm.makeCode st k).length = SIZE) :
    (Game.play R cm cb st).countP Event.isSetScore = R ∧
    (Game.play R cm cb st).countP Event.isLoses = 1 ∧
    ∃ l, Game.play R cm cb st =
      l ++ [Event.setScore (scoreAt cb cm.makeCode st (R - 1)), Event.loses] := by
  have hs : ∀ k, k < R → scoreAt cb cm.makeCode st k ≠ allMatchScore := by
    intro k hk h
    exact hne k hk
      ((score_eq_allMatch_iff cm.makeCode _ hsec (hlen k hk)).1 h)
  obtain ⟨m, rfl⟩ : ∃ m, R = m + 1 := ⟨R - 1, by omega⟩
  have hcounts := playLoop_counts_of_no_win cb cm.makeCode (m + 1) st hs
  obtain ⟨l, hl⟩ := playLoop_loss_shape cb cm.makeCode m st hs
  refine ⟨?_, ?_, ⟨Event.makeCode cm.makeCode :: l, ?_⟩⟩
  · simp [Game.play, List.countP_cons, Event.isSetScore, hcounts.1]
  · simp [Game.play, List.countP_cons, Event.isLoses, hcounts.2]
  · simp only [Nat.add_sub_cancel]
    rw [Game.play, hl]
    rfl

/-- Witness for C7: secret `[A,A,A,A]`, a guesser always playing
`[B,B,B,B]`, budget 2. -/
theorem game_play_loss_witness :
    (Game.play 2 ⟨[CodePeg.A, CodePeg.A, CodePeg.A, CodePeg.A]⟩
        (constBreaker [CodePeg.B, CodePeg.B, CodePeg.B, CodePeg.B]) ()).countP
      Event.isSetScore = 2 ∧
    (Game.play 2 ⟨[CodePeg.A, CodePeg.A, CodePeg.A, CodePeg.A]⟩
        (constBreaker [CodePeg.B, CodePeg.B, CodePeg.B, CodePeg.B]) ()).countP
      Event.isLoses = 1 ∧
    ∃ l, Game.play 2 ⟨[CodePeg.A, CodePeg.A, CodePeg.A, CodePeg.A]⟩
        (constBreaker [CodePeg.B, CodePeg.B, CodePeg.B, CodePeg.B]) () =
      l ++ [Event.setScore (scoreAt
          (constBreaker [CodePeg.B, CodePeg.B, CodePeg.B, CodePeg.B])
          [CodePeg.A, CodePeg.A, CodePeg.A, CodePeg.A] () (2 - 1)),
        Event.loses] :=
  game_play_loss (constBreaker [CodePeg.B, CodePeg.B, CodePeg.B, CodePeg.B])
    ⟨[CodePeg.A, CodePeg.A, CodePeg.A, CodePeg.A]⟩ () 2
    (by decide) rfl (by decide) (by decide)

/-- C8: with round budget `R ≥ 1`, first `R - 1` guesses different from the
secret and the `R`-th guess equal to it, `play` delivers exactly `R` scores,
never calls `loses`, terminates immediately after delivering the all-match
score, and a delivered score is the all-match score exactly when the
corresponding guess equals the secret. -/
theorem game_play_win {σ : Type} (cb : CodeBreaker σ) (cm : CodeMaker) (st : σ)
    (R : Nat) (hR : 1 ≤ R) (hsec : cm.makeCode.length = SIZE)
    (hlen : ∀ k, k < R → (guessAt cb cm.makeCode st k).length = SIZE)
    (hne : ∀ k, k < R - 1 → guessAt cb cm.makeCode st k ≠ cm.makeCode)
    (heq : guessAt cb cm.makeCode st (R - 1) = cm.makeCode) :
    (Game.play R cm cb st).countP Event.isSetScore = R ∧
    (Game.play R cm cb st).countP Event.isLoses = 0 ∧
    (∃ l, Game.play R cm cb st = l ++ [Event.setScore allMatchScore]) ∧
    ∀ k, k < R → (scoreAt cb cm.makeCode st k = allMatchScore ↔
      guessAt cb cm.makeCode st k = cm.makeCode) := by
  have hiff : ∀ k, k < R → (scoreAt cb cm.makeCode st k = allMatchScore ↔
      guessAt cb cm.makeCode st k = cm.makeCode) := fun k hk =>
    score_eq_allMatch_iff cm.makeCode _ hsec (hlen k hk)
  have hswin : scoreAt cb cm.makeCode st (R - 1) = allMatchScore :=
    (hiff (R - 1) (by omega)).2 heq
  have hsne : ∀ k, k < R - 1 → scoreAt cb cm.makeCode st k ≠ allMatchScore :=
    fun k hk h => hne k hk ((hiff k (by omega)).1 h)
  obtain ⟨m, rfl⟩ : ∃ m, R = m + 1 := ⟨R - 1, by omega⟩
  simp only [Nat.add_sub_cancel] at hswin hsne
  obtain ⟨hc1, hc2, l, hl⟩ :=
    playLoop_win cb cm.makeCode m st (m + 1) (by omega) hsne hswin
  refine ⟨?_, ?_, ⟨Event.makeCode cm.makeCode :: l, ?_⟩, hiff⟩
  · simp [Game.play, List.countP_cons, Event.isSetScore, hc1]
  · simp [Game.play, List.countP_cons, Event.isLoses, hc2]
  · rw [Game.play, hl]
    rfl

/-- Witness for C8: secret `[A,A,A,A]`, a guesser scripted to play
`[B,B,B,B]` then `[A,A,A,A]`, budget 2. -/
theorem game_play_win_witness :
    (Game.play 2 ⟨[CodePeg.A, CodePeg.A, CodePeg.A, CodePeg.A]⟩
        (scriptBreaker [[CodePeg.B, CodePeg.B, CodePeg.B, CodePeg.B],
          [CodePeg.A, CodePeg.A, CodePeg.A, CodePeg.A]]
          [CodePeg.F, CodePeg.F, CodePeg.F, CodePeg.F]) 0).countP
      Event.isSetScore = 2 ∧
    (Game.play 2 ⟨[CodePeg.A, CodePeg.A, CodePeg.A, CodePeg.A]⟩
        (scriptBreaker [[CodePeg.B, CodePeg.B, CodePeg.B, CodePeg.B],
          [CodePeg.A, CodePeg.A, CodePeg.A, CodePeg.A]]
          [CodePeg.F, CodePeg.F, CodePeg.F, CodePeg.F]) 0).countP
      Event.isLoses = 0 ∧
    (∃ l, Game.play 2 ⟨[CodePeg.A, CodePeg.A, CodePeg.A, CodePeg.A]⟩
        (scriptBreaker [[CodePeg.B, CodePeg.B, CodePeg.B, CodePeg.B],
          [CodePeg.A, CodePeg.A, CodePeg.A, CodePeg.A]]
          [CodePeg.F, CodePeg.F, CodePeg.F, CodePeg.F]) 0 =
      l ++ [Event.setScore allMatchScore]) ∧
    ∀ k, k < 2 → (scoreAt
        (scriptBreaker [[CodePeg.B, CodePeg.B, CodePeg.B, CodePeg.B],
          [CodePeg.A, CodePeg.A, CodePeg.A, CodePeg.A]]
          [CodePeg.F, CodePeg.F, CodePeg.F, CodePeg.F])
        [CodePeg.A, CodePeg.A, CodePeg.A, CodePeg.A] 0 k = allMatchScore ↔
      guessAt
        (scriptBreaker [[CodePeg.B, CodePeg.B, CodePeg.B, CodePeg.B],
          [CodePeg.A, CodePeg.A, CodePeg.A, CodePeg.A]]
          [CodePeg.F, CodePeg.F, CodePeg.F, CodePeg.F])
        [CodePeg.A, CodePeg.A, CodePeg.A, CodePeg.A] 0 k =
          [CodePeg.A, CodePeg.A, CodePeg.A, CodePeg.A]) :=
  game_play_win
    (scriptBreaker [[CodePeg.B, CodePeg.B, CodePeg.B, CodePeg.B],
      [CodePeg.A, CodePeg.A, CodePeg.A, CodePeg.A]]
      [CodePeg.F, CodePeg.F, CodePeg.F, CodePeg.F])
    ⟨[CodePeg.A, CodePeg.A, CodePeg.A, CodePeg.A]⟩ 0 2
    (by decide) rfl (by decide) (by decide) (by decide)

/-- C9: in one `play` invocation the loss notification is called at most
once, and never when some delivered score was the all-match score. -/
theorem game_play_loses_at_most_once {σ : Type} (cb : CodeBreaker σ)
    (cm : CodeMaker) (st : σ) (R : Nat) :
    (Game.play R cm cb st).countP Event.isLoses ≤ 1 ∧
    (Event.setScore allMatchScore ∈ Game.play R cm cb st →
      (Game.play R cm cb st).countP Event.isLoses = 0) := by
  constructor
  · simpa [Game.play, List.countP_cons, Event.isLoses] using
      playLoop_countP_isLoses_le_one cb cm.makeCode R st
  · intro hmem
    have hmem2 : Event.setScore allMatchScore ∈ playLoop cb cm.makeCode R st := by
      simpa [Game.play] using hmem
    simpa [Game.play, List.countP_cons, Event.isLoses] using
      playLoop_no_loses_of_win cb cm.makeCode R st hmem2

/-- Witness for C9: secret `[A,A,A,A]`, a guesser always playing the
secret, budget 3. -/
theorem game_play_loses_at_most_once_witness :
    (Game.play 3 ⟨[CodePeg.A, CodePeg.A, CodePeg.A, CodePeg.A]⟩
        (constBreaker [CodePeg.A, CodePeg.A, CodePeg.A, CodePeg.A]) ()).countP
      Event.isLoses ≤ 1 ∧
    (Event.setScore allMatchScore ∈
        Game.play 3 ⟨[CodePeg.A, CodePeg.A, CodePeg.A, CodePeg.A]⟩
          (constBreaker [CodePeg.A, CodePeg.A, CodePeg.A, CodePeg.A]) () →
      (Game.play 3 ⟨[CodePeg.A, CodePeg.A, CodePeg.A, CodePeg.A]⟩
          (constBreaker [CodePeg.A, CodePeg.A, CodePeg.A, CodePeg.A]) ()).countP
        Event.isLoses = 0) :=
  game_play_loses_at_most_once
    (constBreaker [CodePeg.A, CodePeg.A, CodePeg.A, CodePeg.A])
    ⟨[CodePeg.A, CodePeg.A, CodePeg.A, CodePeg.A]⟩ () 3

/-- C10: with round budget 0, `play` requests the secret exactly once,
makes no `guess_code` and no `set_score` call, and calls `loses` exactly
once. -/
theorem game_play_zero_rounds {σ : Type} (cb : CodeBreaker σ) (cm : CodeMaker)
    (st : σ) :
    Game.play 0 cm cb st = [Event.makeCode cm.makeCode, Event.loses] ∧
    (Game.play 0 cm cb st).countP Event.isMakeCode = 1 ∧
    (Game.play 0 cm cb st).countP Event.isGuessCode = 0 ∧
    (Game.play 0 cm cb st).countP Event.isSetScore = 0 ∧
    (Game.play 0 cm cb st).countP Event.isLoses = 1 := by
  refine ⟨rfl, ?_, ?_, ?_, ?_⟩ <;> rfl

end Mastermind
